import Mathlib

set_option linter.unusedSectionVars false

/-!
Shallow embedding of `cppbp::basic_string_view` from
`src/include/cppbp/string_view.hpp` (pbmoeller/cpp-backports).

Modelling conventions:
* `CharT` becomes a type parameter `α` with a `LinearOrder` (the unit-wise
  ordering used by `std::char_traits::lt`/`compare`) and an `Inhabited`
  instance (the `default` element stands in for the value produced by an
  out-of-bounds read, which is undefined behaviour in the source; every
  theorem below keeps its reads in bounds).
* The member `m_str` (a `const CharT*`) is modelled as the list of units
  readable from the pointer onward; pointer arithmetic `m_str + pos` becomes
  `List.drop pos`.  The member `m_size` is a `Nat`.
* `size_type` is `std::size_t`, a 64-bit unsigned integer, so
  `npos = static_cast<size_type>(-1) = 2^64 - 1`.  Views that can exist in a
  real address space have `m_size < npos` (the source's `max_size` is far
  below it); the validity predicate records this, and with it every piece of
  index arithmetic the code actually reaches stays below `2^64`, so plain
  `Nat` arithmetic coincides with the machine arithmetic.  The one place the
  source relies on unsigned wrap-around (`--i` past `0` in `rfind`, and
  `last_index - 1` in `find_last_of`) is modelled explicitly.
* Functions that `throw std::out_of_range` return `Except String`, carrying
  the exact message string the source passes to the exception.
-/

namespace cppbp

/-- `static_cast<size_type>(-1)` for `size_type = std::size_t` (64-bit). -/
def npos : Nat := 2 ^ 64 - 1

/-- The view: a pointer (modelled as the readable run of units) and a size.
Mirrors the two data members `m_str` and `m_size` of `basic_string_view`. -/
structure basic_string_view (α : Type) where
  m_str : List α
  m_size : Nat
deriving DecidableEq

namespace basic_string_view

variable {α : Type} [LinearOrder α] [Inhabited α]

/-- Models the read `m_str[i]`.  For `i` beyond the readable run the source
has undefined behaviour; the model returns `default` there, and no theorem
below depends on that branch. -/
def read (v : basic_string_view α) (i : Nat) : α :=
  v.m_str.getD i default

/-- The units the view actually denotes: the first `m_size` units from the
window start.  This is proof vocabulary (the "content" of the view), not a
source function. -/
def window (v : basic_string_view α) : List α :=
  v.m_str.take v.m_size

/-- A view a C++ program can actually hold: the `m_size` units starting at
`m_str` are readable, and the size is below `npos` (the source's `max_size`
caps sizes far below `2^64`). -/
def Valid (v : basic_string_view α) : Prop :=
  v.m_size ≤ v.m_str.length ∧ v.m_size < npos

instance (v : basic_string_view α) : Decidable (Valid v) := by
  unfold Valid; infer_instance

/-- The `(const_pointer, size_type)` constructor, specialised to a window
over exactly the given run (`basic_string_view{str, count}` with
`count = str.length`). -/
def mkView (s : List α) : basic_string_view α :=
  ⟨s, s.length⟩

/-- `traits_type::length`: scans from the pointer to the first unit equal to
`CharT()` (the terminating sentinel, here an explicit parameter `nul`). -/
def traits_length (nul : α) (s : List α) : Nat :=
  (s.takeWhile (fun c => decide (c ≠ nul))).length

/-- The `basic_string_view(const_pointer str)` constructor:
`m_str = str`, `m_size = traits_type::length(str)`. -/
def fromCString (nul : α) (s : List α) : basic_string_view α :=
  ⟨s, traits_length nul s⟩

/-- `size()` -/
def size (v : basic_string_view α) : Nat := v.m_size

/-- `empty()` -/
def empty (v : basic_string_view α) : Bool := v.m_size == 0

/-- `c_str()`: `return m_str;` -/
def c_str (v : basic_string_view α) : List α := v.m_str

/-- `data()`: `return m_str;` -/
def data (v : basic_string_view α) : List α := v.m_str

/-- `front()`: `return *m_str;` (precondition `m_size > 0`). -/
def front (v : basic_string_view α) : α := read v 0

/-- `back()`.  The source line is `return *m_str[m_size - 1];`, which applies
indirection to the character value `m_str[m_size - 1]` — ill-formed for every
character unit type (compare `front`, which correctly returns `*m_str`).  The
only well-formed reading, and the one the spec describes, drops the stray
`*`: `return m_str[m_size - 1];`.  That reading is embedded here. -/
def back (v : basic_string_view α) : α := read v (v.m_size - 1)

/-- `at(pos)`: throws `std::out_of_range` when `pos >= m_size`. -/
def at' (v : basic_string_view α) (pos : Nat) : Except String α :=
  if pos ≥ v.m_size then
    Except.error "basic_string_view::at: position out of range"
  else
    Except.ok (read v pos)

/-- `traits_type::compare(s1, s2, n)`: three-way comparison of the first `n`
units, by `lt` at the first differing position.  The C++ contract fixes only
the sign of the result; the model uses the representatives `-1`, `0`, `1`. -/
def traits_compare : List α → List α → Nat → Int
  | _, _, 0 => 0
  | s1, s2, n + 1 =>
    if s1.headD default < s2.headD default then -1
    else if s2.headD default < s1.headD default then 1
    else traits_compare s1.tail s2.tail n

/-- `compare(basic_string_view str)` (string_view.hpp:212-227). -/
def compare (a b : basic_string_view α) : Int :=
  let rlen := min a.m_size b.m_size
  let ret := traits_compare a.m_str b.m_str rlen
  if ret ≠ 0 then ret
  else if a.m_size < b.m_size then -1
  else if a.m_size > b.m_size then 1
  else 0

/-- `operator==` (string_view.hpp:516-521):
`lhs.size() == rhs.size() && lhs.compare(rhs) == 0`. -/
def sv_eq (a b : basic_string_view α) : Bool :=
  a.m_size == b.m_size && compare a b == 0

/-- The unchecked core of `substr`: `basic_string_view{m_str + pos, rlen}`
with `rlen = min(m_size - pos, n)`.  `substr` calls this after its bounds
check; `find`/`rfind` call `substr` only at positions `pos ≤ m_size`, where
the check cannot fire, so they are modelled on this core directly. -/
def substrU (v : basic_string_view α) (pos n : Nat) : basic_string_view α :=
  ⟨v.m_str.drop pos, min (v.m_size - pos) n⟩

/-- `substr(pos, n)` (string_view.hpp:203-210).  Note the source's exception
message names `copy`, not `substr` — a copy-paste slip kept verbatim here. -/
def substr (v : basic_string_view α) (pos n : Nat) :
    Except String (basic_string_view α) :=
  if pos > v.m_size then
    Except.error "basic_string_view::copy: position out of range"
  else
    Except.ok (substrU v pos n)

/-- `traits_type::copy(dst, src, n)`: overwrites the first `n` units of the
destination with the first `n` units readable from `src`. -/
def traits_copy (dst src : List α) (n : Nat) : List α :=
  src.take n ++ dst.drop n

/-- `copy(dst, n, pos)` (string_view.hpp:190-201): returns the count copied
together with the resulting destination buffer. -/
def copy (v : basic_string_view α) (dst : List α) (n pos : Nat) :
    Except String (Nat × List α) :=
  if pos > v.m_size then
    Except.error "basic_string_view::copy: position out of range"
  else
    let rlen := min (v.m_size - pos) n
    Except.ok (rlen, traits_copy dst (v.m_str.drop pos) rlen)

/-- The private helper `is_one_of(c, str)`: ranges over `str`'s window
(`begin()` to `end()`, i.e. the first `m_size` units) and returns `true` on
the first unit equal to `c`. -/
def is_one_of (c : α) (str : basic_string_view α) : Bool :=
  (window str).any (fun s => decide (c = s))

/-- The loop of `find` (string_view.hpp:314-319): iterations `i = 0` up to
`increments` inclusive (`rem` counts the iterations left), each testing the
window of length `str.m_size` at `j = i + offset`.  The source's comparison
reads `substr(j, str.m_size) == v`, but no `v` is declared anywhere in the
class or file — the header is ill-formed as written.  The needle `str`
(whose size already fixes the window length) is the only identifier in scope
the comparison can denote, and the one the spec describes; that reading is
embedded. -/
def find_loop (v s : basic_string_view α) (offset : Nat) : Nat → Nat → Nat
  | 0, _ => npos
  | rem + 1, i =>
    let j := i + offset
    if sv_eq (substrU v j s.m_size) s then j
    else find_loop v s offset rem (i + 1)

/-- `find(str, pos)` (string_view.hpp:302-322), with the loop-body identifier
slip read as described at `find_loop`. -/
def find (v s : basic_string_view α) (pos : Nat) : Nat :=
  if pos > v.m_size then npos
  else if pos + s.m_size > v.m_size then npos
  else
    let offset := pos
    let increments := v.m_size - s.m_size - offset
    find_loop v s offset (increments + 1) 0

/-- The loop of `rfind` (string_view.hpp:352-357): `while (i != npos)` tests
the window at `i` and decrements; decrementing past `0` wraps `size_type` to
`npos`, ending the loop, which is modelled by the structural descent here.
The source's comparison again reads `== v` (see `find_loop`); the needle is
the only possible referent and is used here. -/
def rfind_loop (v s : basic_string_view α) : Nat → Nat
  | 0 => if sv_eq (substrU v 0 s.m_size) s then 0 else npos
  | i + 1 => if sv_eq (substrU v (i + 1) s.m_size) s then i + 1
             else rfind_loop v s i

/-- `rfind(str, pos)` (string_view.hpp:339-360).  The source's third guard is
written `str.m_size() > m_size`, calling the data member `m_size` as a
function — ill-formed; the only well-formed reading, `str.m_size > m_size`,
is embedded. -/
def rfind (v s : basic_string_view α) (pos : Nat) : Nat :=
  if v.m_size = 0 then (if s.m_size = 0 then 0 else npos)
  else if s.m_size = 0 then min (v.m_size - 1) pos
  else if s.m_size > v.m_size then npos
  else rfind_loop v s (min pos (v.m_size - s.m_size))

/-- The loop of `find_last_of` (string_view.hpp:409-414), embedded exactly as
written: `for (i = 0; i <= last_index; ++i)` with a body that ignores `i` and
tests the fixed index `j = last_index - 1` (in `size_type` arithmetic, so
`j = npos` when `last_index = 0`).  `rem` counts the iterations left. -/
def flo_loop (v str : basic_string_view α) (last_index : Nat) : Nat → Nat
  | 0 => npos
  | rem + 1 =>
    let j := if last_index = 0 then npos else last_index - 1
    if is_one_of (read v j) str then j
    else flo_loop v str last_index rem

/-- `find_last_of(str, pos)` (string_view.hpp:402-416): the loop runs
`last_index + 1` iterations (`i = 0` to `last_index`). -/
def find_last_of (v str : basic_string_view α) (pos : Nat) : Nat :=
  if v.m_size = 0 then npos
  else
    let last_index := min (v.m_size - 1) pos
    flo_loop v str last_index (last_index + 1)

/-- Spec vocabulary: the needle `s` occurs in `v` at offset `j` — the
`s.m_size` units of `v` starting at `j` fit inside the window and equal `s`
unit-for-unit. -/
def occursAt (v s : basic_string_view α) (j : Nat) : Prop :=
  j + s.m_size ≤ v.m_size ∧ ∀ i, i < s.m_size → read v (j + i) = read s i

instance (v s : basic_string_view α) (j : Nat) : Decidable (occursAt v s j) := by
  unfold occursAt; exact instDecidableAnd

end basic_string_view

/-- Spec-side comparison, following the spec's words only: lexicographic
three-way comparison by unit-wise ordering, with the shorter list sorting
first when one is a prefix of the other ("lexicographic-then-length"). -/
def lexicographicThenLength {α : Type} [LinearOrder α] : List α → List α → Int
  | [], [] => 0
  | [], _ :: _ => -1
  | _ :: _, [] => 1
  | a :: as, b :: bs =>
    if a < b then -1
    else if b < a then 1
    else lexicographicThenLength as bs

end cppbp

namespace cppbp

open basic_string_view

/-- C10: `c_str()` returns exactly the same pointer as `data()` — both
`return m_str;`, the raw window start, for every view. -/
theorem c_str_returns_same_pointer_as_data {α : Type} (v : basic_string_view α) :
    c_str v = data v := rfl

variable {α : Type} [LinearOrder α] [Inhabited α]

theorem window_length {v : basic_string_view α} (hv : Valid v) :
    (window v).length = v.m_size := by
  simp only [window, List.length_take]
  exact Nat.min_eq_left hv.1

theorem read_eq_getElem {v : basic_string_view α} {i : Nat}
    (h : i < v.m_str.length) : v.read i = v.m_str[i] := by
  simp [basic_string_view.read, List.getD_eq_getElem?_getD, List.getElem?_eq_getElem h]

theorem window_getElem? {v : basic_string_view α} (hv : Valid v) {i : Nat}
    (hi : i < v.m_size) : (window v)[i]? = some (v.read i) := by
  have hlen : i < v.m_str.length := lt_of_lt_of_le hi hv.1
  rw [window, List.getElem?_take_of_lt hi, List.getElem?_eq_getElem hlen,
    read_eq_getElem hlen]

theorem traits_compare_eq_lex :
    ∀ (n : Nat) (s1 s2 : List α), n ≤ s1.length → n ≤ s2.length →
      traits_compare s1 s2 n = lexicographicThenLength (s1.take n) (s2.take n) := by
  intro n
  induction n with
  | zero => intro s1 s2 _ _; simp [traits_compare, lexicographicThenLength]
  | succ n ih =>
    intro s1 s2 h1 h2
    match s1, s2 with
    | [], _ => simp at h1
    | _ :: _, [] => simp at h2
    | a :: as, b :: bs =>
      simp only [traits_compare, List.headD_cons, List.tail_cons, List.take_succ_cons,
        lexicographicThenLength]
      rcases lt_trichotomy a b with hab | hab | hab
      · simp [hab, not_lt_of_gt hab]
      · subst hab
        simp only [lt_irrefl, if_false]
        exact ih as bs (Nat.le_of_succ_le_succ h1) (Nat.le_of_succ_le_succ h2)
      · simp [hab, not_lt_of_gt hab]

theorem lex_split (x : List α) :
    ∀ y : List α,
      lexicographicThenLength x y =
        (if lexicographicThenLength (x.take (min x.length y.length))
              (y.take (min x.length y.length)) ≠ 0 then
           lexicographicThenLength (x.take (min x.length y.length))
             (y.take (min x.length y.length))
         else if x.length < y.length then -1
         else if x.length > y.length then 1
         else 0) := by
  induction x with
  | nil =>
    intro y
    cases y with
    | nil => simp [lexicographicThenLength]
    | cons b bs => simp [lexicographicThenLength]
  | cons a as ih =>
    intro y
    cases y with
    | nil => simp [lexicographicThenLength]
    | cons b bs =>
      rw [show min (a :: as).length (b :: bs).length = min as.length bs.length + 1 by
            simp [Nat.succ_min_succ],
          List.take_succ_cons, List.take_succ_cons]
      rcases lt_trichotomy a b with hab | hab | hab
      · have e1 : lexicographicThenLength (a :: as) (b :: bs) = -1 := by
          simp [lexicographicThenLength, hab]
        have e2 : lexicographicThenLength (a :: as.take (min as.length bs.length))
            (b :: bs.take (min as.length bs.length)) = -1 := by
          simp [lexicographicThenLength, hab]
        rw [e1, e2, if_pos (show (-1 : Int) ≠ 0 by decide)]
      · subst hab
        have e1 : lexicographicThenLength (a :: as) (a :: bs) =
            lexicographicThenLength as bs := by
          simp [lexicographicThenLength]
        have e2 : lexicographicThenLength (a :: as.take (min as.length bs.length))
            (a :: bs.take (min as.length bs.length)) =
            lexicographicThenLength (as.take (min as.length bs.length))
              (bs.take (min as.length bs.length)) := by
          simp [lexicographicThenLength]
        rw [e1, e2]
        simp only [List.length_cons, gt_iff_lt, Nat.add_lt_add_iff_right]
        exact ih bs
      · have e1 : lexicographicThenLength (a :: as) (b :: bs) = 1 := by
          simp [lexicographicThenLength, hab, not_lt_of_gt hab]
        have e2 : lexicographicThenLength (a :: as.take (min as.length bs.length))
            (b :: bs.take (min as.length bs.length)) = 1 := by
          simp [lexicographicThenLength, hab, not_lt_of_gt hab]
        rw [e1, e2, if_pos (show (1 : Int) ≠ 0 by decide)]

theorem lex_eq_zero_iff (x : List α) :
    ∀ y : List α, lexicographicThenLength x y = 0 ↔ x = y := by
  induction x with
  | nil =>
    intro y
    cases y with
    | nil => simp [lexicographicThenLength]
    | cons b bs => simp [lexicographicThenLength]
  | cons a as ih =>
    intro y
    cases y with
    | nil => simp [lexicographicThenLength]
    | cons b bs =>
      rcases lt_trichotomy a b with hab | hab | hab
      · have e1 : lexicographicThenLength (a :: as) (b :: bs) = -1 := by
          simp [lexicographicThenLength, hab]
        rw [e1]
        constructor
        · intro h; exact absurd h (by decide)
        · intro h
          injection h with h1 _
          exact absurd h1 (ne_of_lt hab)
      · subst hab
        have e1 : lexicographicThenLength (a :: as) (a :: bs) =
            lexicographicThenLength as bs := by
          simp [lexicographicThenLength]
        rw [e1]
        simp [ih bs]
      · have e1 : lexicographicThenLength (a :: as) (b :: bs) = 1 := by
          simp [lexicographicThenLength, hab, not_lt_of_gt hab]
        rw [e1]
        constructor
        · intro h; exact absurd h (by decide)
        · intro h
          injection h with h1 _
          exact absurd h1.symm (ne_of_lt hab)

theorem compare_eq_lex {a b : basic_string_view α} (ha : Valid a) (hb : Valid b) :
    a.compare b = lexicographicThenLength (window a) (window b) := by
  have h1 : min a.m_size b.m_size ≤ a.m_str.length :=
    le_trans (Nat.min_le_left _ _) ha.1
  have h2 : min a.m_size b.m_size ≤ b.m_str.length :=
    le_trans (Nat.min_le_right _ _) hb.1
  have hwa : (window a).take (min a.m_size b.m_size) =
      a.m_str.take (min a.m_size b.m_size) := by
    rw [window, List.take_take, Nat.min_eq_left (Nat.min_le_left _ _)]
  have hwb : (window b).take (min a.m_size b.m_size) =
      b.m_str.take (min a.m_size b.m_size) := by
    rw [window, List.take_take, Nat.min_eq_left (Nat.min_le_right _ _)]
  have hla : (window a).length = a.m_size := window_length ha
  have hlb : (window b).length = b.m_size := window_length hb
  rw [lex_split (window a) (window b), hla, hlb, hwa, hwb]
  show basic_string_view.compare a b = _
  unfold basic_string_view.compare
  simp only [traits_compare_eq_lex (min a.m_size b.m_size) a.m_str b.m_str h1 h2]

theorem compare_eq_zero_iff_window {a b : basic_string_view α}
    (ha : Valid a) (hb : Valid b) :
    a.compare b = 0 ↔ window a = window b := by
  rw [compare_eq_lex ha hb]
  exact lex_eq_zero_iff _ _

theorem window_eq_iff_pointwise {a b : basic_string_view α}
    (ha : Valid a) (hb : Valid b) :
    window a = window b ↔
      (a.m_size = b.m_size ∧ ∀ i, i < a.m_size → a.read i = b.read i) := by
  constructor
  · intro hw
    have hsz : a.m_size = b.m_size := by
      rw [← window_length ha, ← window_length hb, hw]
    refine ⟨hsz, fun i hi => ?_⟩
    have h1 := window_getElem? ha hi
    have h2 := window_getElem? hb (hsz ▸ hi)
    rw [hw] at h1
    exact Option.some.inj (h1.symm.trans h2)
  · rintro ⟨hsz, hp⟩
    apply List.ext_getElem?
    intro n
    by_cases hn : n < a.m_size
    · rw [window_getElem? ha hn, window_getElem? hb (hsz ▸ hn), hp n hn]
    · have e1 : (window a)[n]? = none :=
        List.getElem?_eq_none (by rw [window_length ha]; omega)
      have e2 : (window b)[n]? = none :=
        List.getElem?_eq_none (by rw [window_length hb]; omega)
      rw [e1, e2]

theorem sv_eq_iff_window {a b : basic_string_view α} (ha : Valid a) (hb : Valid b) :
    sv_eq a b = true ↔ window a = window b := by
  simp only [sv_eq, Bool.and_eq_true, beq_iff_eq]
  constructor
  · rintro ⟨_, hc⟩
    exact (compare_eq_zero_iff_window ha hb).1 hc
  · intro hw
    have hsz : a.m_size = b.m_size := by
      rw [← window_length ha, ← window_length hb, hw]
    exact ⟨hsz, (compare_eq_zero_iff_window ha hb).2 hw⟩

theorem sv_eq_false_of_size_ne {a b : basic_string_view α}
    (h : a.m_size ≠ b.m_size) : sv_eq a b = false := by
  simp [sv_eq, h]

theorem valid_substrU {v : basic_string_view α} (hv : Valid v) (pos n : Nat) :
    Valid (substrU v pos n) := by
  constructor
  · have h1 : min (v.m_size - pos) n ≤ v.m_size - pos := Nat.min_le_left _ _
    have h2 : v.m_size - pos ≤ v.m_str.length - pos := Nat.sub_le_sub_right hv.1 _
    simp only [substrU, List.length_drop]
    exact le_trans h1 h2
  · have h1 : min (v.m_size - pos) n ≤ v.m_size - pos := Nat.min_le_left _ _
    have h2 := hv.2
    simp only [substrU]
    omega

theorem valid_mkView {l : List α} (h : l.length < npos) : Valid (mkView l) :=
  ⟨le_refl _, h⟩

theorem window_mkView (l : List α) : window (mkView l) = l := by
  simp [window, mkView, List.take_length]

theorem window_substrU (v : basic_string_view α) (pos n : Nat) :
    window (substrU v pos n) = ((window v).drop pos).take n := by
  show (v.m_str.drop pos).take (min (v.m_size - pos) n) = _
  rw [window, List.drop_take, List.take_take]
  rw [Nat.min_comm (v.m_size - pos) n]

/-- The window comparison performed inside `find`/`rfind`,
`substr(j, str.m_size) == str`, succeeds exactly at the occurrences of the
needle (the side condition rules out the degenerate combination of an empty
needle with an offset beyond the window, which the search loops never
reach). -/
theorem sv_eq_substrU_iff_occursAt {v s : basic_string_view α}
    (hv : Valid v) (hs : Valid s) (j : Nat)
    (hside : 0 < s.m_size ∨ j ≤ v.m_size) :
    (sv_eq (substrU v j s.m_size) s = true ↔ occursAt v s j) := by
  by_cases hj : j + s.m_size ≤ v.m_size
  · have hfit : s.m_size ≤ v.m_size - j := Nat.le_sub_of_add_le (by omega)
    have hmin : min (v.m_size - j) s.m_size = s.m_size := Nat.min_eq_right hfit
    rw [sv_eq_iff_window (valid_substrU hv j s.m_size) hs,
      window_eq_iff_pointwise (valid_substrU hv j s.m_size) hs]
    have hsz : (substrU v j s.m_size).m_size = s.m_size := hmin
    have hread : ∀ i, i < s.m_size → (substrU v j s.m_size).read i = v.read (j + i) := by
      intro i hi
      have hlt : j + i < v.m_str.length := by
        have := hv.1; omega
      have hdlt : i < (v.m_str.drop j).length := by
        simp only [List.length_drop]; omega
      show (v.m_str.drop j).getD i default = _
      rw [List.getD_eq_getElem?_getD, List.getElem?_eq_getElem hdlt]
      rw [List.getElem_drop]
      rw [read_eq_getElem hlt]
      rfl
    constructor
    · rintro ⟨_, hp⟩
      refine ⟨hj, fun i hi => ?_⟩
      have := hp i (by rw [hsz]; exact hi)
      rw [hread i hi] at this
      exact this
    · rintro ⟨_, hp⟩
      refine ⟨hsz, fun i hi => ?_⟩
      rw [hsz] at hi
      rw [hread i hi]
      exact hp i hi
  · have hss : 0 < s.m_size := by
      rcases hside with h | h
      · exact h
      · omega
    have hsz : (substrU v j s.m_size).m_size ≠ s.m_size := by
      show min (v.m_size - j) s.m_size ≠ s.m_size
      have : v.m_size - j < s.m_size := by omega
      omega
    rw [sv_eq_false_of_size_ne hsz]
    constructor
    · intro h; exact absurd h (by simp)
    · intro h; exact absurd hj (absurd h.1 (by omega))

theorem find_loop_spec (v s : basic_string_view α) (offset : Nat) :
    ∀ rem i : Nat,
      (∃ t, t < rem ∧
          find_loop v s offset rem i = i + t + offset ∧
          sv_eq (substrU v (i + t + offset) s.m_size) s = true ∧
          ∀ u, u < t → sv_eq (substrU v (i + u + offset) s.m_size) s = false)
      ∨ (find_loop v s offset rem i = npos ∧
         ∀ t, t < rem → sv_eq (substrU v (i + t + offset) s.m_size) s = false) := by
  intro rem
  induction rem with
  | zero =>
    intro i
    right
    exact ⟨rfl, fun t ht => absurd ht (Nat.not_lt_zero t)⟩
  | succ rem ih =>
    intro i
    by_cases h : sv_eq (substrU v (i + offset) s.m_size) s = true
    · left
      have hfound : find_loop v s offset (rem + 1) i = i + offset := by
        simp only [find_loop]
        rw [if_pos h]
      refine ⟨0, Nat.succ_pos rem, ?_, ?_, ?_⟩
      · rw [hfound]; omega
      · have e : i + 0 + offset = i + offset := by omega
        rw [e]; exact h
      · intro u hu; exact absurd hu (Nat.not_lt_zero u)
    · have hfalse : sv_eq (substrU v (i + offset) s.m_size) s = false := by
        simpa using h
      have hstep : find_loop v s offset (rem + 1) i = find_loop v s offset rem (i + 1) := by
        simp only [find_loop]
        rw [if_neg h]
      rcases ih (i + 1) with ⟨t, ht, heq, hm, hmin⟩ | ⟨heq, hall⟩
      · left
        refine ⟨t + 1, Nat.succ_lt_succ ht, ?_, ?_, ?_⟩
        · rw [hstep, heq]; omega
        · have e : i + (t + 1) + offset = i + 1 + t + offset := by omega
          rw [e]; exact hm
        · intro u hu
          cases u with
          | zero =>
            have e : i + 0 + offset = i + offset := by omega
            rw [e]; exact hfalse
          | succ u' =>
            have e : i + (u' + 1) + offset = i + 1 + u' + offset := by omega
            rw [e]
            exact hmin u' (by omega)
      · right
        constructor
        · rw [hstep]; exact heq
        · intro t ht
          cases t with
          | zero =>
            have e : i + 0 + offset = i + offset := by omega
            rw [e]; exact hfalse
          | succ t' =>
            have e : i + (t' + 1) + offset = i + 1 + t' + offset := by omega
            rw [e]
            exact hall t' (by omega)

/-- C1: `find(s, pos)` returns the smallest offset `j` with `pos ≤ j` and
`j + s.size() ≤ v.size()` such that the `s.size()` units of `v` starting at
`j` equal `s` unit-for-unit; it returns `npos` when no such offset exists,
in particular when `pos > v.size()`; on a view of `"hello world"` it returns
`6` for needle `"world"` and `npos` for needle `"xyz"`.  (Stated over the
unique well-formed reading of the source's comparison `substr(j, str.m_size)
== v`, whose `v` is undeclared; see `find_loop`.) -/
theorem find_finds_leftmost_occurrence (v s : basic_string_view α) (pos : Nat)
    (hv : Valid v) (hs : Valid s) :
    ((∃ j, pos ≤ j ∧ occursAt v s j) →
        pos ≤ find v s pos ∧ occursAt v s (find v s pos) ∧
        ∀ k, pos ≤ k → occursAt v s k → find v s pos ≤ k)
    ∧ ((¬ ∃ j, pos ≤ j ∧ occursAt v s j) → find v s pos = npos)
    ∧ (v.m_size < pos → find v s pos = npos)
    ∧ find (mkView (['h', 'e', 'l', 'l', 'o', ' ', 'w', 'o', 'r', 'l', 'd'] : List Char))
        (mkView ['w', 'o', 'r', 'l', 'd']) 0 = 6
    ∧ find (mkView (['h', 'e', 'l', 'l', 'o', ' ', 'w', 'o', 'r', 'l', 'd'] : List Char))
        (mkView ['x', 'y', 'z']) 0 = npos := by
  have H : (find v s pos = npos ∧ ¬ ∃ j, pos ≤ j ∧ occursAt v s j)
      ∨ (pos ≤ find v s pos ∧ occursAt v s (find v s pos) ∧
         ∀ k, pos ≤ k → occursAt v s k → find v s pos ≤ k) := by
    by_cases h1 : v.m_size < pos
    · left
      constructor
      · simp only [find]; rw [if_pos h1]
      · rintro ⟨j, hj, hocc⟩
        have h2 := hocc.1
        omega
    · push_neg at h1
      by_cases h2 : pos + s.m_size > v.m_size
      · left
        constructor
        · simp only [find]; rw [if_neg (by omega), if_pos h2]
        · rintro ⟨j, hj, hocc⟩
          have h3 := hocc.1
          omega
      · push_neg at h2
        have hfind : find v s pos =
            find_loop v s pos (v.m_size - s.m_size - pos + 1) 0 := by
          simp only [find]
          rw [if_neg (by omega), if_neg (by omega)]
        rcases find_loop_spec v s pos (v.m_size - s.m_size - pos + 1) 0 with
          ⟨t, ht, heq, hm, hmin⟩ | ⟨heq, hall⟩
        · right
          have hj : find v s pos = 0 + t + pos := hfind.trans heq
          have hjb : 0 + t + pos ≤ v.m_size := by omega
          have hocc : occursAt v s (0 + t + pos) :=
            (sv_eq_substrU_iff_occursAt hv hs _ (Or.inr hjb)).1 hm
          refine ⟨by omega, ?_, ?_⟩
          · rw [hj]; exact hocc
          · intro k hk hocck
            by_contra hcon
            push_neg at hcon
            have hkb : k + s.m_size ≤ v.m_size := hocck.1
            have hu : k - pos < t := by omega
            have hfu := hmin (k - pos) hu
            have e : 0 + (k - pos) + pos = k := by omega
            rw [e] at hfu
            have htrue := (sv_eq_substrU_iff_occursAt hv hs k (Or.inr (by omega))).2 hocck
            rw [htrue] at hfu
            simp at hfu
        · left
          constructor
          · rw [hfind]; exact heq
          · rintro ⟨j, hj, hocc⟩
            have hjb := hocc.1
            have htj : j - pos < v.m_size - s.m_size - pos + 1 := by omega
            have hfj := hall (j - pos) htj
            have e : 0 + (j - pos) + pos = j := by omega
            rw [e] at hfj
            have htrue := (sv_eq_substrU_iff_occursAt hv hs j (Or.inr (by omega))).2 hocc
            rw [htrue] at hfj
            simp at hfj
  refine ⟨?_, ?_, ?_, by decide, by decide⟩
  · intro hex
    rcases H with ⟨_, hno⟩ | hgood
    · exact absurd hex hno
    · exact hgood
  · intro hno
    rcases H with ⟨hnp, _⟩ | hgood
    · exact hnp
    · exact absurd ⟨find v s pos, hgood.1, hgood.2.1⟩ hno
  · intro hlt
    rcases H with ⟨hnp, _⟩ | hgood
    · exact hnp
    · have h1 := hgood.1
      have h2 := hgood.2.1.1
      omega

/-- Witness for C1 at a concrete input. -/
theorem find_finds_leftmost_occurrence_witness :
    0 ≤ find (mkView (['a'] : List Char)) (mkView ['a']) 0 ∧
    occursAt (mkView (['a'] : List Char)) (mkView ['a'])
      (find (mkView (['a'] : List Char)) (mkView ['a']) 0) ∧
    ∀ k, 0 ≤ k → occursAt (mkView (['a'] : List Char)) (mkView ['a']) k →
      find (mkView (['a'] : List Char)) (mkView ['a']) 0 ≤ k :=
  (find_finds_leftmost_occurrence (mkView ['a']) (mkView ['a']) 0
    (by decide) (by decide)).1 ⟨0, by decide⟩

theorem rfind_loop_spec (v s : basic_string_view α) :
    ∀ i : Nat,
      (rfind_loop v s i ≤ i ∧
       sv_eq (substrU v (rfind_loop v s i) s.m_size) s = true ∧
       ∀ k, k ≤ i → sv_eq (substrU v k s.m_size) s = true → k ≤ rfind_loop v s i)
      ∨ (rfind_loop v s i = npos ∧
         ∀ k, k ≤ i → sv_eq (substrU v k s.m_size) s = false) := by
  intro i
  induction i with
  | zero =>
    by_cases h : sv_eq (substrU v 0 s.m_size) s = true
    · left
      have he : rfind_loop v s 0 = 0 := by
        simp only [rfind_loop]; rw [if_pos h]
      refine ⟨le_of_eq he, ?_, ?_⟩
      · rw [he]; exact h
      · intro k hk _
        rw [he]; exact hk
    · right
      have he : rfind_loop v s 0 = npos := by
        simp only [rfind_loop]; rw [if_neg h]
      refine ⟨he, ?_⟩
      intro k hk
      have hk0 : k = 0 := Nat.le_zero.mp hk
      subst hk0
      simpa using h
  | succ i ih =>
    by_cases h : sv_eq (substrU v (i + 1) s.m_size) s = true
    · left
      have he : rfind_loop v s (i + 1) = i + 1 := by
        simp only [rfind_loop]; rw [if_pos h]
      refine ⟨le_of_eq he, ?_, ?_⟩
      · rw [he]; exact h
      · intro k hk _
        rw [he]; exact hk
    · have he : rfind_loop v s (i + 1) = rfind_loop v s i := by
        simp only [rfind_loop]; rw [if_neg h]
      have hfalse : sv_eq (substrU v (i + 1) s.m_size) s = false := by
        simpa using h
      rcases ih with ⟨hle, hm, hmax⟩ | ⟨hnp, hall⟩
      · left
        refine ⟨by omega, ?_, ?_⟩
        · rw [he]; exact hm
        · intro k hk hkm
          rcases Nat.lt_or_ge k (i + 1) with hk' | hk'
          · have := hmax k (by omega) hkm
            omega
          · have hke : k = i + 1 := by omega
            subst hke
            rw [hkm] at hfalse
            simp at hfalse
      · right
        refine ⟨he.trans hnp, ?_⟩
        intro k hk
        rcases Nat.lt_or_ge k (i + 1) with hk' | hk'
        · exact hall k (by omega)
        · have hke : k = i + 1 := by omega
          subst hke
          exact hfalse

/-- C2: `rfind(s, pos)` returns the largest offset `j ≤ pos` at which `s`
occurs in `v`, and `npos` when `s` occurs at no such offset; when `s` is
empty it returns `min(v.size() - 1, pos)` for non-empty `v` and `0` when
both are empty; in particular an empty needle on a view of size 5 with
`pos = npos` gives `4`.  (Stated over the unique well-formed reading of the
source, whose guard calls the data member as `str.m_size()` and whose window
comparison names an undeclared `v`; see `rfind` and `rfind_loop`.) -/
theorem rfind_finds_rightmost_occurrence (v s : basic_string_view α) (pos : Nat)
    (hv : Valid v) (hs : Valid s) :
    (s.m_size ≠ 0 →
        ((∃ j, j ≤ pos ∧ occursAt v s j) →
            rfind v s pos ≤ pos ∧ occursAt v s (rfind v s pos) ∧
            ∀ k, k ≤ pos → occursAt v s k → k ≤ rfind v s pos)
        ∧ ((¬ ∃ j, j ≤ pos ∧ occursAt v s j) → rfind v s pos = npos))
    ∧ (s.m_size = 0 →
        rfind v s pos = if v.m_size = 0 then 0 else min (v.m_size - 1) pos)
    ∧ rfind (mkView (['a', 'b', 'c', 'd', 'e'] : List Char)) (mkView []) npos = 4 := by
  refine ⟨?_, ?_, by decide⟩
  · intro hsz
    by_cases hv0 : v.m_size = 0
    · have hfind : rfind v s pos = npos := by
        simp only [rfind]; rw [if_pos hv0, if_neg hsz]
      have hnone : ¬ ∃ j, j ≤ pos ∧ occursAt v s j := by
        rintro ⟨j, hj, hocc⟩
        have := hocc.1
        omega
      exact ⟨fun hex => absurd hex hnone, fun _ => hfind⟩
    · by_cases hbig : s.m_size > v.m_size
      · have hfind : rfind v s pos = npos := by
          simp only [rfind]; rw [if_neg hv0, if_neg hsz, if_pos hbig]
        have hnone : ¬ ∃ j, j ≤ pos ∧ occursAt v s j := by
          rintro ⟨j, hj, hocc⟩
          have := hocc.1
          omega
        exact ⟨fun hex => absurd hex hnone, fun _ => hfind⟩
      · push_neg at hbig
        have hfind : rfind v s pos = rfind_loop v s (min pos (v.m_size - s.m_size)) := by
          simp only [rfind]; rw [if_neg hv0, if_neg hsz, if_neg (by omega)]
        have hM : ∀ k, sv_eq (substrU v k s.m_size) s = true ↔ occursAt v s k :=
          fun k => sv_eq_substrU_iff_occursAt hv hs k (Or.inl (by omega))
        rcases rfind_loop_spec v s (min pos (v.m_size - s.m_size)) with
          ⟨hle, hm, hmax⟩ | ⟨hnp, hall⟩
        · have hocc := (hM _).1 hm
          have hlepos : rfind_loop v s (min pos (v.m_size - s.m_size)) ≤ pos := by
            have := Nat.min_le_left pos (v.m_size - s.m_size)
            omega
          constructor
          · intro _
            refine ⟨?_, ?_, ?_⟩
            · rw [hfind]; exact hlepos
            · rw [hfind]; exact hocc
            · intro k hk hkocc
              have hkb := hkocc.1
              have hkle : k ≤ min pos (v.m_size - s.m_size) :=
                le_min hk (by omega)
              have := hmax k hkle ((hM k).2 hkocc)
              rw [hfind]; omega
          · intro hno
            exact absurd ⟨rfind_loop v s (min pos (v.m_size - s.m_size)),
              hlepos, hocc⟩ hno
        · constructor
          · intro hex
            exfalso
            rcases hex with ⟨j, hj, hocc⟩
            have hjb := hocc.1
            have hjle : j ≤ min pos (v.m_size - s.m_size) :=
              le_min hj (by omega)
            have hf := hall j hjle
            rw [(hM j).2 hocc] at hf
            simp at hf
          · intro _
            rw [hfind]; exact hnp
  · intro hsz
    by_cases hv0 : v.m_size = 0
    · simp [rfind, hsz, hv0]
    · simp [rfind, hsz, hv0]

/-- Witness for C2 at a concrete input. -/
theorem rfind_finds_rightmost_occurrence_witness :
    rfind (mkView (['a'] : List Char)) (mkView ['a']) 0 ≤ 0 ∧
    occursAt (mkView (['a'] : List Char)) (mkView ['a'])
      (rfind (mkView (['a'] : List Char)) (mkView ['a']) 0) ∧
    ∀ k, k ≤ 0 → occursAt (mkView (['a'] : List Char)) (mkView ['a']) k →
      k ≤ rfind (mkView (['a'] : List Char)) (mkView ['a']) 0 :=
  ((rfind_finds_rightmost_occurrence (mkView ['a']) (mkView ['a']) 0
    (by decide) (by decide)).1 (by decide)).1 ⟨0, by decide⟩

/-- C3 (counter-evidence): on `v = "ab"`, candidate set `s = "b"`,
`pos = npos`, the source's `find_last_of` returns `npos`, although the unit
at index `1 ≤ min(v.size() - 1, pos)` is a member of `s` — the loop body
tests only the fixed index `last_index - 1` instead of scanning from
`last_index` down to `0`. -/
theorem find_last_of_tests_only_fixed_index :
    find_last_of (mkView (['a', 'b'] : List Char)) (mkView ['b']) npos = npos
    ∧ is_one_of ((mkView (['a', 'b'] : List Char)).read 1) (mkView ['b']) = true
    ∧ 1 ≤ min ((mkView (['a', 'b'] : List Char)).m_size - 1) npos := by
  decide

/-- C4: the two-argument `compare` realises exactly the
lexicographic-then-length three-way comparison of the two windows, and in
particular orders `"ab"` before `"abc"` before `"b"`. -/
theorem compare_follows_lexicographic_then_length_rule :
    (∀ a b : basic_string_view α, Valid a → Valid b →
        a.compare b = lexicographicThenLength (window a) (window b))
    ∧ (mkView (['a', 'b'] : List Char)).compare (mkView ['a', 'b', 'c']) < 0
    ∧ (mkView (['a', 'b', 'c'] : List Char)).compare (mkView ['b']) < 0 :=
  ⟨fun _ _ ha hb => compare_eq_lex ha hb, by decide, by decide⟩

/-- Witness for C4 at a concrete input. -/
theorem compare_follows_lexicographic_then_length_rule_witness :
    (mkView (['a'] : List Char)).compare (mkView ['b']) =
      lexicographicThenLength (window (mkView (['a'] : List Char)))
        (window (mkView (['b'] : List Char))) :=
  (@compare_follows_lexicographic_then_length_rule Char _ _).1 _ _
    (by decide) (by decide)

/-- C5: `A == B` holds iff the sizes agree and every corresponding unit pair
is equal; equivalently iff the sizes agree and `compare` returns `0`
(content equality, independent of the backing storage identity). -/
theorem eq_iff_same_size_and_units (a b : basic_string_view α)
    (ha : Valid a) (hb : Valid b) :
    (sv_eq a b = true ↔
        a.m_size = b.m_size ∧ ∀ i, i < a.m_size → a.read i = b.read i)
    ∧ (sv_eq a b = true ↔ a.m_size = b.m_size ∧ a.compare b = 0) := by
  constructor
  · rw [sv_eq_iff_window ha hb, window_eq_iff_pointwise ha hb]
  · constructor
    · intro h
      have hw := (sv_eq_iff_window ha hb).1 h
      have hsz : a.m_size = b.m_size := ((window_eq_iff_pointwise ha hb).1 hw).1
      exact ⟨hsz, (compare_eq_zero_iff_window ha hb).2 hw⟩
    · rintro ⟨_, hc⟩
      exact (sv_eq_iff_window ha hb).2 ((compare_eq_zero_iff_window ha hb).1 hc)

/-- Witness for C5 at a concrete input. -/
theorem eq_iff_same_size_and_units_witness :
    sv_eq (mkView (['a'] : List Char)) (mkView ['a']) = true ↔
      (mkView (['a'] : List Char)).m_size = (mkView (['a'] : List Char)).m_size ∧
      ∀ i, i < (mkView (['a'] : List Char)).m_size →
        (mkView (['a'] : List Char)).read i = (mkView (['a'] : List Char)).read i :=
  (eq_iff_same_size_and_units (mkView ['a']) (mkView ['a']) (by decide) (by decide)).1

/-- C6: for `pos ≤ size`, `substr(pos, n)` succeeds and yields the view over
the logical range `[pos, pos + min(size - pos, n))` — whose window is the
manual slice of `v`'s window, against which `compare` yields `0` — and
`substr` fails with the out-of-range error exactly when `pos > size`. -/
theorem substr_yields_logical_range (v : basic_string_view α) (pos n : Nat)
    (hv : Valid v) :
    (pos ≤ v.m_size →
        substr v pos n = Except.ok (substrU v pos n)
        ∧ window (substrU v pos n) = ((window v).drop pos).take n
        ∧ (substrU v pos n).compare (mkView (((window v).drop pos).take n)) = 0)
    ∧ (v.m_size < pos →
        substr v pos n = Except.error "basic_string_view::copy: position out of range") := by
  constructor
  · intro hpos
    refine ⟨?_, window_substrU v pos n, ?_⟩
    · simp only [substr]; rw [if_neg (by omega)]
    · have hvs := valid_substrU hv pos n
      have hvm : Valid (mkView (((window v).drop pos).take n)) := by
        apply valid_mkView
        have h1 : (((window v).drop pos).take n).length ≤ (window v).length := by
          rw [List.length_take, List.length_drop]
          exact le_trans (Nat.min_le_right _ _) (Nat.sub_le _ _)
        have h2 : (window v).length = v.m_size := window_length hv
        have h3 := hv.2
        omega
      rw [compare_eq_zero_iff_window hvs hvm, window_mkView, window_substrU]
  · intro hgt
    simp only [substr]; rw [if_pos hgt]

/-- Witness for C6 at a concrete input. -/
theorem substr_yields_logical_range_witness :
    substr (mkView (['a'] : List Char)) 0 1 =
      Except.ok (substrU (mkView (['a'] : List Char)) 0 1)
    ∧ window (substrU (mkView (['a'] : List Char)) 0 1) =
        ((window (mkView (['a'] : List Char))).drop 0).take 1
    ∧ (substrU (mkView (['a'] : List Char)) 0 1).compare
        (mkView (((window (mkView (['a'] : List Char))).drop 0).take 1)) = 0 :=
  (substr_yields_logical_range (mkView ['a']) 0 1 (by decide)).1 (by decide)

/-- C7 (counter-evidence for the message part): the position checks
themselves fire exactly at `pos > size` (for `at`, at `pos ≥ size`,
including `pos = size = 0`), but `substr`'s out-of-range failure carries the
message of `copy`, not of `substr`: it names `basic_string_view::copy`. -/
theorem substr_error_message_names_copy :
    substr (mkView (['a'] : List Char)) 2 npos
      = Except.error "basic_string_view::copy: position out of range"
    ∧ at' (mkView (['a'] : List Char)) 1
      = Except.error "basic_string_view::at: position out of range"
    ∧ at' (mkView ([] : List Char)) 0
      = Except.error "basic_string_view::at: position out of range" :=
  ⟨rfl, rfl, rfl⟩

/-- C8: for a non-empty view, `back()` returns the last unit of the window
and `front()` the first.  (Stated over the unique well-formed reading of the
source's `return *m_str[m_size - 1];`, whose stray indirection applied to a
character value is ill-formed; see `back`.) -/
theorem back_and_front_return_window_ends (v : basic_string_view α)
    (hv : Valid v) (hpos : 0 < v.m_size) :
    (window v).getLast? = some v.back ∧ (window v).head? = some v.front := by
  constructor
  · have hlen : (window v).length = v.m_size := window_length hv
    rw [List.getLast?_eq_getElem?, hlen]
    exact window_getElem? hv (by omega)
  · rw [List.head?_eq_getElem?]
    exact window_getElem? hv hpos

/-- Witness for C8 at a concrete input. -/
theorem back_and_front_return_window_ends_witness :
    (window (mkView (['a', 'b'] : List Char))).getLast? =
      some (mkView (['a', 'b'] : List Char)).back ∧
    (window (mkView (['a', 'b'] : List Char))).head? =
      some (mkView (['a', 'b'] : List Char)).front :=
  back_and_front_return_window_ends (mkView ['a', 'b']) (by decide) (by decide)

/-- C9: `copy(dst, n, pos)` with `pos ≤ size` copies `min(size - pos, n)`
units starting at `pos` into the front of the destination and returns that
count; and the round trip — building a view from a null-terminated run of
`L` units, then copying with capacity and count at least `L` at `pos = 0` —
reproduces exactly the original `L` units and returns `L`. -/
theorem copy_min_count_and_roundtrip :
    (∀ (v : basic_string_view α) (dst : List α) (n pos : Nat),
        Valid v → pos ≤ v.m_size →
        copy v dst n pos = Except.ok (min (v.m_size - pos) n,
          (v.m_str.drop pos).take (min (v.m_size - pos) n) ++
            dst.drop (min (v.m_size - pos) n)))
    ∧ (∀ (nul : α) (run rest dst : List α) (n : Nat),
        (∀ c ∈ run, c ≠ nul) → run.length ≤ dst.length → run.length ≤ n →
        copy (fromCString nul (run ++ nul :: rest)) dst n 0
          = Except.ok (run.length, run ++ dst.drop run.length)) := by
  constructor
  · intro v dst n pos _ hpos
    simp only [copy]
    rw [if_neg (by omega)]
    rfl
  · intro nul run rest dst n hrun hdst hn
    have hlen : traits_length nul (run ++ nul :: rest) = run.length := by
      unfold traits_length
      rw [List.takeWhile_append_of_pos (fun a ha => decide_eq_true (hrun a ha)),
        List.takeWhile_cons_of_neg (by simp)]
      simp
    simp only [copy, fromCString]
    rw [hlen]
    rw [if_neg (Nat.not_lt_zero _)]
    simp only [Nat.sub_zero, List.drop_zero, traits_copy]
    rw [Nat.min_eq_left hn]
    rw [List.take_left' rfl]

/-- Witness for C9 at a concrete input. -/
theorem copy_min_count_and_roundtrip_witness :
    copy (fromCString (Char.ofNat 0) (['a'] ++ Char.ofNat 0 :: []))
        (['x'] : List Char) 1 0
      = Except.ok ((['a'] : List Char).length,
          ['a'] ++ (['x'] : List Char).drop (['a'] : List Char).length) :=
  (@copy_min_count_and_roundtrip Char _ _).2 (Char.ofNat 0) ['a'] [] ['x'] 1
    (by decide) (by decide) (by decide)


end cppbp
